import Mathlib

/-!
Shallow embedding of src/neural_network_cracking/markov_model.py: the
character n-gram password model (MarkovModel, BackoffMarkovModel) and its
three smoothing strategies (none, additive, backoff), with theorems
checking the natural-language specification against this code.

Modelling conventions:
* Python strings are `List Char`; Python `sorted` on a string is a stable
  ascending sort by code point, `List.mergeSort`.
* Counts, weights and probabilities are exact rationals.  numpy float64
  vectors become `List ℚ`; in-place mutation of the answer vector is
  modelled by returning the new vector.  numpy division of a float vector
  by a zero total silently yields NaN entries rather than raising; the
  exact-arithmetic model maps division by zero to 0, which is likewise a
  silent degenerate result, not an error.
* `collections.defaultdict(int)` is modelled as a total function
  `List Char → ℚ` with default 0.  Every smoother reads the dict only
  through a guard of the form `d[g] if g in d else 0` (or the same with
  an added amount), for which a key that is absent and a key present with
  value 0 are indistinguishable, so the total-function view is
  observationally faithful.
* Python `assert` failures and `KeyError` become `Except String`.
-/

/-- Python `sorted` on a string: ascending sort by code point.  Since the
code-point order on characters is linear, every sorting algorithm yields
the same list; insertion sort keeps the definition kernel-computable. -/
def sortChars (l : List Char) : List Char := l.insertionSort (· ≤ ·)

/-- Python slice `s[a:]` for an integer `a` (a negative index counts from
the end of the string, clamped at 0). -/
def pySliceFrom (s : List Char) (a : Int) : List Char :=
  if a < 0 then s.drop ((s.length : Int) + a).toNat else s.drop a.toNat

/-- Python slice `s[a:b]` for nonnegative bounds. -/
def pySlice (s : List Char) (a b : Nat) : List Char := (s.take b).drop a

/-- The frequency table: `collections.defaultdict(int)` as a total map
with default 0 (see the module comment for why this is faithful). -/
abbrev FreqDict : Type := List Char → ℚ

/-- The empty frequency table created by `MarkovModel.__init__`. -/
def emptyFreq : FreqDict := fun _ => 0

/-- `chars_to_index`: `dict([(c, i) for i, c in enumerate(alphabet)])`.
A later pair overwrites an earlier one, as in a Python dict build. -/
def charsToIndex (al : List Char) : Char → Option Nat :=
  al.enum.foldl (fun f p => fun c => if c = p.2 then some p.1 else f c) (fun _ => none)

/-- `NoSmoothingSmoother.freq`: the raw count, 0 when the ngram is absent. -/
def freqNone (d : FreqDict) (g : List Char) : ℚ := d g

/-- `AdditiveSmoothingSmoother.freq`: the raw count plus the additive
smoothing amount (the amount alone when the ngram is absent). -/
def freqAdditive (d : FreqDict) (amount : ℚ) (g : List Char) : ℚ := d g + amount

/-- `BackoffSmoother.freq`: the additive-smoothed count, floored to 0 when
it falls below the backoff smoothing threshold. -/
def freqBackoff (d : FreqDict) (amount threshold : ℚ) (g : List Char) : ℚ :=
  if d g + amount < threshold then 0 else d g + amount

/-- The vector effect of `NoSmoothingSmoother.sum_elems`:
`answer[i] += freq(ctx_arg + alphabet[i])` for every alphabet index. -/
def sum_elems (fr : List Char → ℚ) (al ctx : List Char) (answer : List ℚ) : List ℚ :=
  (al.zip answer).map (fun p => p.2 + fr (ctx ++ [p.1]))

/-- The value returned by `NoSmoothingSmoother.sum_elems`: the sum of the
looked-up frequencies over the alphabet (the initial vector contents are
not part of the total). -/
def total_sum (fr : List Char → ℚ) (al ctx : List Char) : ℚ :=
  (al.map (fun c => fr (ctx ++ [c]))).sum

/-- `NoSmoothingSmoother._predict`, shared by the additive smoother:
`sum_elems`, then every entry divided by the returned total. -/
def std_predict (fr : List Char → ℚ) (al ctx : List Char) (answer : List ℚ) : List ℚ :=
  (sum_elems fr al ctx answer).map (fun x => x / total_sum fr al ctx)

/-- `NoSmoothingSmoother.predict`: the shape assertion, then `_predict`. -/
def nonePredict (d : FreqDict) (al ctx : List Char) (answer : List ℚ) :
    Except String (List ℚ) :=
  if answer.length = al.length then .ok (std_predict (freqNone d) al ctx answer)
  else .error "assert answer.shape == (len(self.alphabet),)"

/-- `AdditiveSmoothingSmoother.predict` (inherited `predict`/`_predict`
with the overridden `freq`). -/
def additivePredict (d : FreqDict) (amount : ℚ) (al ctx : List Char) (answer : List ℚ) :
    Except String (List ℚ) :=
  if answer.length = al.length then .ok (std_predict (freqAdditive d amount) al ctx answer)
  else .error "assert answer.shape == (len(self.alphabet),)"

/-- `BackoffSmoother._predict`.  When the total is zero the answer vector
is zeroed (`answer.fill(0)`), the assertion rejects an empty context, and
the smoother recurses on the context with its leftmost character dropped
(the recursive `self.predict` re-checks the shape of the zeroed vector,
which holds by construction); otherwise every accumulated entry is
divided by the total. -/
def backoff_predict (fr : List Char → ℚ) (al : List Char) :
    List Char → List ℚ → Except String (List ℚ)
  | [], answer =>
    if total_sum fr al [] = 0 then .error "Backing off on 0 character string!?!"
    else .ok ((sum_elems fr al [] answer).map (fun x => x / total_sum fr al []))
  | c :: rest, answer =>
    if total_sum fr al (c :: rest) = 0 then
      backoff_predict fr al rest (List.replicate al.length 0)
    else .ok ((sum_elems fr al (c :: rest) answer).map (fun x => x / total_sum fr al (c :: rest)))

/-- `BackoffSmoother.predict`: the shape assertion, then `_predict`. -/
def backoffPredict (d : FreqDict) (amount threshold : ℚ) (al ctx : List Char)
    (answer : List ℚ) : Except String (List ℚ) :=
  if answer.length = al.length then backoff_predict (freqBackoff d amount threshold) al ctx answer
  else .error "assert answer.shape == (len(self.alphabet),)"

/-- The configuration fields read by the model and the smoothers. -/
structure Config where
  char_bag : List Char
  additive_smoothing_amount : ℚ
  backoff_smoothing_threshold : ℚ

/-- `PASSWORD_START`, the start-of-password sentinel: a tab character. -/
def PASSWORD_START : Char := '\t'

/-- Modelled from the spec: `pg.PASSWORD_END`, the end-of-password
sentinel imported from the external `pwd_guess` module, which is not part
of this source tree; the spec writes it as a dollar sign.  The
development keeps the sentinel as an explicit parameter `pe` wherever
possible and uses this constant only in concrete instances. -/
def PASSWORD_END : Char := '$'

/-- The state of a `MarkovModel` object. -/
structure MarkovModel where
  alphabet : List Char
  chars_to_index : Char → Option Nat
  smoothing : String
  freq_dict : FreqDict
  order : Nat
  config : Config

/-- `MarkovModel.__init__`: sort the char bag, build the index map over
the sorted alphabet, start from an empty table, and assert that the end
sentinel is in the alphabet.  No other configuration value is validated
here. -/
def mkMarkovModel (config : Config) (smoothing : String) (order : Nat) (pe : Char) :
    Except String MarkovModel :=
  let al := sortChars config.char_bag
  if pe ∈ al then
    .ok { alphabet := al, chars_to_index := charsToIndex al, smoothing := smoothing,
          freq_dict := emptyFreq, order := order, config := config }
  else .error "assert pg.PASSWORD_END in self.alphabet"

/-- `MarkovModel.make_smoother`: the `SMOOTHING_MAP` lookup; an unknown
smoothing kind raises `KeyError` here, not at construction.  The smoother
is represented by its `predict` entry point; every smoother sorts
`config.char_bag` for its own alphabet. -/
def make_smoother (m : MarkovModel) :
    Except String (List Char → List ℚ → Except String (List ℚ)) :=
  if m.smoothing = "none" then
    .ok (nonePredict m.freq_dict (sortChars m.config.char_bag))
  else if m.smoothing = "additive" then
    .ok (additivePredict m.freq_dict m.config.additive_smoothing_amount
      (sortChars m.config.char_bag))
  else if m.smoothing = "backoff" then
    .ok (backoffPredict m.freq_dict m.config.additive_smoothing_amount
      m.config.backoff_smoothing_threshold (sortChars m.config.char_bag))
  else .error "KeyError"

/-- `MarkovModel.truncate_context`: `context[-(self.order - 1):]` when the
context is at least `order` long, the context unchanged otherwise. -/
def truncate_context (order : Nat) (context : List Char) : List Char :=
  if context.length ≥ order then pySliceFrom context (-((order : Int) - 1))
  else context

/-- `MarkovModel.predict`: truncate the context, then delegate to the
smoother built by `make_smoother`. -/
def MarkovModel.predict (m : MarkovModel) (context : List Char) (answer : List ℚ) :
    Except String (List ℚ) :=
  match make_smoother m with
  | .error e => .error e
  | .ok sm => sm (truncate_context m.order context) answer

/-- `MarkovModel.probability_next_char`: reject a character outside the
index map, allocate a fresh zero vector of the model alphabet length, run
`predict`, and read the entry at the character index. -/
def probability_next_char (m : MarkovModel) (context : List Char) (nc : Char) :
    Except String ℚ :=
  match m.chars_to_index nc with
  | none => .error "not in alphabet. Please change config file"
  | some i =>
    match m.predict context (List.replicate m.alphabet.length 0) with
    | .error e => .error e
    | .ok probs => .ok (probs.getD i 0)

/-- `MarkovModel.increment` with its two assertions. -/
def increment (order : Nat) (d : FreqDict) (g : List Char) (w : ℚ) :
    Except String FreqDict :=
  if w = 0 then .error "assert freq != 0"
  else if g.length ≤ order then .ok (fun g2 => if g2 = g then d g2 + w else d g2)
  else .error "assert len(pwd) <= self.order"

/-- Fold a list of increments through the table, stopping at the first
assertion failure. -/
def applyIncrements (order : Nat) (d : FreqDict) (gs : List (List Char)) (w : ℚ) :
    Except String FreqDict :=
  gs.foldlM (fun acc g => increment order acc g w) d

/-- The ngrams incremented by `MarkovModel.train_on_pwd`, in program
order: the prefix loop `pwd[:j]` for `j in range(1, min(order, len+1))`,
the sliding-window loop `pwd[i:i+order]` for `i in range(len+1-order)`,
and the final increment `pwd[-self.order + 1:] + PASSWORD_END`. -/
def train_increments (order : Nat) (pe : Char) (pwd : List Char) : List (List Char) :=
  (List.range' 1 (min order (pwd.length + 1) - 1)).map (fun j => pwd.take j)
    ++ (List.range (pwd.length + 1 - order)).map (fun i => pySlice pwd i (i + order))
    ++ [pySliceFrom pwd (1 - (order : Int)) ++ [pe]]

/-- `MarkovModel.train_on_pwd`: apply all the standard-trainer increments
to the table. -/
def train_on_pwd (order : Nat) (pe : Char) (d : FreqDict) (pwd : List Char) (w : ℚ) :
    Except String FreqDict :=
  applyIncrements order d (train_increments order pe pwd) w

/-- The increments of the claim, stated from the specification words: the
prefix of length `j` for every `j` from 1 to `min(order-1, len)`, the
window `pwd[i:i+order]` for every `i` from 0 through `len+1-order-1`, and
the last `order-1` characters of `pwd` followed by the end sentinel. -/
def spec_train_increments (order : Nat) (pe : Char) (pwd : List Char) : List (List Char) :=
  (List.range' 1 (min (order - 1) pwd.length)).map (fun j => pwd.take j)
    ++ (List.range (pwd.length + 1 - order)).map (fun i => pySlice pwd i (i + order))
    ++ [pwd.drop (pwd.length - (order - 1)) ++ [pe]]

/-- The ngrams incremented by `BackoffMarkovModel.train_on_pwd`:
`pwd_norm[p : p+1+oi]` for every start position `p` of
`PASSWORD_START + pwd + PASSWORD_END` and every
`oi in range(min(order, len(pwd_norm) - p))`, in program order. -/
def backoff_train_increments (order : Nat) (ps pe : Char) (pwd : List Char) :
    List (List Char) :=
  let pwd_norm := ps :: (pwd ++ [pe])
  (List.range pwd_norm.length).flatMap (fun p =>
    (List.range (min order (pwd_norm.length - p))).map
      (fun oi => pySlice pwd_norm p (p + 1 + oi)))

/-- `BackoffMarkovModel.train_on_pwd`: apply all the backoff-trainer
increments to the table. -/
def backoff_train_on_pwd (order : Nat) (ps pe : Char) (d : FreqDict) (pwd : List Char)
    (w : ℚ) : Except String FreqDict :=
  applyIncrements order d (backoff_train_increments order ps pe pwd) w

/-- `BackoffMarkovModel.__init__`: the base constructor (including its end
sentinel assertion and the index map over the sorted bag), the assertion
that the smoothing kind is backoff, then `PASSWORD_START` appended to the
model alphabet only; `chars_to_index`, `config.char_bag` and hence the
smoother alphabet are left unchanged. -/
def mkBackoffMarkovModel (config : Config) (smoothing : String) (order : Nat) (pe : Char) :
    Except String MarkovModel :=
  match mkMarkovModel config smoothing order pe with
  | .error e => .error e
  | .ok m =>
    if smoothing = "backoff" then .ok { m with alphabet := m.alphabet ++ [PASSWORD_START] }
    else .error "Backoff Markov Model must be created with backoff smoothing"

/-- `MarkovModel.saveModel`: `json.dump` of the frequency table.  The
Python json module round-trips a finite map from ngram strings to numeric
counts exactly (string keys are escaped and unescaped losslessly, ints
and floats reprint exactly), so the serialized state is modelled as the
table itself. -/
def saveModel (m : MarkovModel) : FreqDict := m.freq_dict

/-- `MarkovModel.fromModelFile`: `json.load` the table, run the
constructor with the caller-supplied configuration, attach the loaded
table, and rebuild the smoother from it. -/
def fromModelFile (data : FreqDict) (config : Config) (smoothing : String) (order : Nat)
    (pe : Char) : Except String MarkovModel :=
  match mkMarkovModel config smoothing order pe with
  | .error e => .error e
  | .ok m => .ok { m with freq_dict := data }

/-- `fromModelFile` invoked with `cls = BackoffMarkovModel`, the class
`MarkovModelBuilder` selects for backoff smoothing. -/
def fromModelFileBackoff (data : FreqDict) (config : Config) (smoothing : String)
    (order : Nat) (pe : Char) : Except String MarkovModel :=
  match mkBackoffMarkovModel config smoothing order pe with
  | .error e => .error e
  | .ok m => .ok { m with freq_dict := data }

/-- Whether an `Except` value is a success. -/
def exceptOk {ε α : Type _} : Except ε α → Bool
  | .ok _ => true
  | .error _ => false

/-! ### Helper lemmas -/

theorem zip_replicate_self {α β : Type _} (l : List α) (x : β) :
    l.zip (List.replicate l.length x) = l.map (fun a => (a, x)) := by
  induction l with
  | nil => rfl
  | cons a l ih => simp [List.replicate_succ, ih]

theorem sum_map_add_const (al : List Char) (f : Char → ℚ) (a : ℚ) :
    (al.map (fun c => f c + a)).sum = (al.map f).sum + al.length * a := by
  induction al with
  | nil => simp
  | cons c al ih =>
    simp only [List.map_cons, List.sum_cons, ih, List.length_cons]
    push_cast
    ring

theorem charsToIndex_foldl_getElem? (al : List Char) :
    ∀ (l : List (Nat × Char)) (f0 : Char → Option Nat),
      (∀ p ∈ l, al[p.1]? = some p.2) →
      (∀ c i, f0 c = some i → al[i]? = some c) →
      ∀ c i,
        (l.foldl (fun f p => fun c => if c = p.2 then some p.1 else f c) f0) c = some i →
        al[i]? = some c := by
  intro l
  induction l with
  | nil => intro f0 _ h0; exact h0
  | cons p l ih =>
    intro f0 hl h0 c i h
    simp only [List.foldl_cons] at h
    refine ih _ (fun q hq => hl q (List.mem_cons_of_mem _ hq)) ?_ c i h
    intro c2 i2 h2
    by_cases hc : c2 = p.2
    · simp only [hc, if_pos rfl] at h2
      cases h2
      exact hc ▸ hl p (List.mem_cons_self _ _)
    · simp only [if_neg hc] at h2
      exact h0 c2 i2 h2

theorem charsToIndex_getElem? (al : List Char) (c : Char) (i : Nat)
    (h : charsToIndex al c = some i) : al[i]? = some c := by
  refine charsToIndex_foldl_getElem? al al.enum (fun _ => none) ?_ ?_ c i h
  · intro p hp
    exact List.mem_enum_iff_getElem?.mp hp
  · intro c2 i2 h2
    cases h2

theorem getD_map_of_getElem? (al : List Char) (f : Char → ℚ) (i : Nat) (c : Char)
    (h : al[i]? = some c) : (al.map f).getD i 0 = f c := by
  simp [List.getD_eq_getElem?_getD, List.getElem?_map, h]

theorem applyIncrements_ok (order : Nat) (w : ℚ) (hw : w ≠ 0) :
    ∀ (gs : List (List Char)) (d : FreqDict), (∀ g ∈ gs, g.length ≤ order) →
      ∃ t, applyIncrements order d gs w = .ok t ∧
        ∀ g, t g = d g + w * (gs.count g : ℚ) := by
  intro gs
  induction gs with
  | nil =>
    intro d _
    exact ⟨d, rfl, by simp⟩
  | cons g gs ih =>
    intro d hlen
    have hg : g.length ≤ order := hlen g (List.mem_cons_self _ _)
    have step : increment order d g w = .ok (fun g2 => if g2 = g then d g2 + w else d g2) := by
      simp [increment, hw, hg]
    obtain ⟨t, ht, htval⟩ := ih (fun g2 => if g2 = g then d g2 + w else d g2)
      (fun g2 hg2 => hlen g2 (List.mem_cons_of_mem _ hg2))
    refine ⟨t, ?_, ?_⟩
    · simpa [applyIncrements, List.foldlM_cons, step] using ht
    · intro g2
      rw [htval g2]
      by_cases h : g2 = g
      · subst h
        have hc : (g2 :: gs).count g2 = gs.count g2 + 1 := by
          simp [List.count_cons]
        rw [hc, if_pos rfl]
        push_cast
        ring
      · have hc : (g :: gs).count g2 = gs.count g2 := by
          simp [List.count_cons, h]
        rw [hc, if_neg h]

theorem mkMarkovModel_ok (config : Config) (smoothing : String) (order : Nat) (pe : Char)
    (m : MarkovModel) (h : mkMarkovModel config smoothing order pe = .ok m) :
    pe ∈ sortChars config.char_bag ∧
    m = { alphabet := sortChars config.char_bag,
          chars_to_index := charsToIndex (sortChars config.char_bag),
          smoothing := smoothing, freq_dict := emptyFreq, order := order,
          config := config } := by
  by_cases hm : pe ∈ sortChars config.char_bag
  · simp only [mkMarkovModel, if_pos hm, Except.ok.injEq] at h
    exact ⟨hm, h.symm⟩
  · simp [mkMarkovModel, hm] at h

theorem std_predict_zero (fr : List Char → ℚ) (al ctx : List Char) :
    std_predict fr al ctx (List.replicate al.length 0) =
      al.map (fun c => fr (ctx ++ [c]) / total_sum fr al ctx) := by
  simp only [std_predict, sum_elems, zip_replicate_self, List.map_map]
  refine List.map_congr_left ?_
  intro c _
  simp

/-! ### Claim theorems -/

/-- C7 (amended to order ≥ 2): `truncate_context` returns exactly the
trailing `order - 1` characters when the context has length at least
`order`, and the context unchanged when it is shorter.  For `order = 1`
the slice bound `-(order - 1)` is 0 and every context passes through
unchanged, contrary to the claim (see the counterexample). -/
theorem truncate_context_correct (order : Nat) (context : List Char) (h2 : 2 ≤ order) :
    (order ≤ context.length →
       truncate_context order context = context.drop (context.length - (order - 1)))
    ∧ (context.length < order → truncate_context order context = context) := by
  constructor
  · intro hlen
    have hneg : (-((order : Int) - 1)) < 0 := by omega
    simp only [truncate_context, pySliceFrom, ge_iff_le, if_pos hlen, if_pos hneg]
    have harg : ((context.length : Int) + -((order : Int) - 1)).toNat
        = context.length - (order - 1) := by omega
    rw [harg]
  · intro hlen
    have : ¬ context.length ≥ order := by omega
    simp [truncate_context, this]

/-- Witness for C7 at order 3 on the context abcd: the trailing two
characters are returned. -/
theorem truncate_context_correct_witness :
    (2 : Nat) ≤ 3 ∧ truncate_context 3 ['a', 'b', 'c', 'd'] = ['c', 'd'] := by
  refine ⟨by decide, ?_⟩
  have h := (truncate_context_correct 3 ['a', 'b', 'c', 'd'] (by decide)).1 (by decide)
  simpa using h

/-- Counterexample to C7 as stated: at order 1 the claim demands the
trailing 0 characters (the empty context), but the slice `context[-0:]`
is the whole context. -/
theorem truncate_context_order_one_cex :
    ¬ (truncate_context 1 ['a', 'b'] =
        List.drop (['a', 'b'].length - (1 - 1)) ['a', 'b']) := by
  decide

/-- C9 (amended): model construction validates only that the end sentinel
is in the sorted alphabet; order < 1 and negative smoothing amounts or
thresholds are accepted unchecked, and an unknown smoothing kind fails
only when `make_smoother` runs at the end of training or at load time,
not at construction. -/
theorem construction_validates_only_sentinel (config : Config) (smoothing : String)
    (order : Nat) (pe : Char) :
    (exceptOk (mkMarkovModel config smoothing order pe) = true
      ↔ pe ∈ sortChars config.char_bag)
    ∧ (∀ m : MarkovModel, exceptOk (make_smoother m) = true
      ↔ (m.smoothing = "none" ∨ m.smoothing = "additive" ∨ m.smoothing = "backoff")) := by
  constructor
  · constructor
    · intro h
      by_contra hmem
      simp [mkMarkovModel, hmem, exceptOk] at h
    · intro hmem
      simp [mkMarkovModel, hmem, exceptOk]
  · intro m
    by_cases h1 : m.smoothing = "none" <;> by_cases h2 : m.smoothing = "additive" <;>
      by_cases h3 : m.smoothing = "backoff" <;>
        simp [make_smoother, h1, h2, h3, exceptOk]

/-- Counterexample to C9 as stated: a configuration with order 0, an
unknown smoothing kind, and negative additive amount and threshold is
accepted by the constructor without any rejection. -/
theorem construction_accepts_bad_config_cex :
    exceptOk (mkMarkovModel ⟨['$', 'a'], -1, -1⟩ "bogus" 0 '$') = true := by
  decide

/-- C6 evidence: with no smoothing (and identically for the additive
smoother with amount 0) on a context never observed during training, the
total is 0 yet predict returns successfully; the division by the zero
total leaves a degenerate vector (NaN entries in numpy, zeroes in this
exact model) and no UndefinedDistribution error exists anywhere in the
source. -/
theorem no_smoothing_zero_total_silent :
    total_sum (freqNone emptyFreq) (sortChars ['a', 'b', '$']) ['a'] = 0
    ∧ nonePredict emptyFreq (sortChars ['a', 'b', '$']) ['a'] (List.replicate 3 0)
        = .ok [0, 0, 0]
    ∧ additivePredict emptyFreq 0 (sortChars ['a', 'b', '$']) ['a'] (List.replicate 3 0)
        = .ok [0, 0, 0] := by
  have hs : sortChars ['a', 'b', '$'] = ['$', 'a', 'b'] := by decide
  refine ⟨?_, ?_, ?_⟩ <;>
    · rw [hs]
      norm_num [nonePredict, additivePredict, std_predict, sum_elems, total_sum,
        freqNone, freqAdditive, emptyFreq, List.replicate]

/-- C3: the backoff smoother on a nonempty context whose thresholded
total over the alphabet is zero returns exactly the prediction on the
context with its leftmost character dropped, both starting from the fresh
zero vector the recursion installs. -/
theorem backoff_zero_total_backs_off (d : FreqDict) (amount threshold : ℚ)
    (al : List Char) (c : Char) (rest : List Char)
    (h0 : total_sum (freqBackoff d amount threshold) al (c :: rest) = 0) :
    backoff_predict (freqBackoff d amount threshold) al (c :: rest)
        (List.replicate al.length 0)
      = backoff_predict (freqBackoff d amount threshold) al rest
        (List.replicate al.length 0) := by
  simp [backoff_predict, h0]

/-- Witness for C3: a table where the 2-character context ab has zero
thresholded mass while its 1-character suffix b has nonzero mass; predict
on ab equals direct prediction on b. -/
theorem backoff_zero_total_backs_off_witness :
    total_sum (freqBackoff (fun g => if g = ['b', '$'] then 5 else 0) 0 1)
        (sortChars ['a', 'b', '$']) ['a', 'b'] = 0
    ∧ total_sum (freqBackoff (fun g => if g = ['b', '$'] then 5 else 0) 0 1)
        (sortChars ['a', 'b', '$']) ['b'] ≠ 0
    ∧ backoff_predict (freqBackoff (fun g => if g = ['b', '$'] then 5 else 0) 0 1)
        (sortChars ['a', 'b', '$']) ['a', 'b']
        (List.replicate (sortChars ['a', 'b', '$']).length 0)
      = backoff_predict (freqBackoff (fun g => if g = ['b', '$'] then 5 else 0) 0 1)
        (sortChars ['a', 'b', '$']) ['b']
        (List.replicate (sortChars ['a', 'b', '$']).length 0) := by
  have hs : sortChars ['a', 'b', '$'] = ['$', 'a', 'b'] := by decide
  have h0 : total_sum (freqBackoff (fun g => if g = ['b', '$'] then 5 else 0) 0 1)
      (sortChars ['a', 'b', '$']) ['a', 'b'] = 0 := by
    rw [hs]; simp [total_sum, freqBackoff]
  refine ⟨h0, ?_, ?_⟩
  · rw [hs]; simp [total_sum, freqBackoff]
  · exact backoff_zero_total_backs_off _ 0 1 _ 'a' ['b'] h0

/-- The backoff constructor succeeds exactly on backoff smoothing with
the sentinel present, and appends the start sentinel to the model
alphabet after sorting, leaving the index map on the sorted bag. -/
theorem mkBackoffMarkovModel_ok (config : Config) (smoothing : String) (order : Nat)
    (pe : Char) (m : MarkovModel)
    (h : mkBackoffMarkovModel config smoothing order pe = .ok m) :
    pe ∈ sortChars config.char_bag ∧ smoothing = "backoff" ∧
    m = { alphabet := sortChars config.char_bag ++ [PASSWORD_START],
          chars_to_index := charsToIndex (sortChars config.char_bag),
          smoothing := smoothing, freq_dict := emptyFreq, order := order,
          config := config } := by
  unfold mkBackoffMarkovModel at h
  split at h
  · cases h
  · rename_i m0 hmk
    obtain ⟨hpe, rfl⟩ := mkMarkovModel_ok _ _ _ _ _ hmk
    by_cases hs : smoothing = "backoff"
    · rw [if_pos hs, Except.ok.injEq] at h
      exact ⟨hpe, hs, h.symm⟩
    · rw [if_neg hs] at h
      cases h

/-- C8 (amended): for the standard model the alphabet is the configured
character set sorted by code point, it coincides with the smoother
alphabet (the same sorted bag, whose length matches the vector that
probability_next_char allocates), and the index map points back into the
alphabet.  For the backoff-training variant the start sentinel is instead
appended after sorting, to the model alphabet only, which is therefore
one longer than the smoother alphabet, while the index map still covers
only the sorted bag. -/
theorem alphabet_layout (config : Config) (smoothing : String) (order : Nat) (pe : Char) :
    (∀ m : MarkovModel, mkMarkovModel config smoothing order pe = .ok m →
       m.alphabet = sortChars config.char_bag
       ∧ m.config = config
       ∧ List.Sorted (· ≤ ·) m.alphabet
       ∧ (∀ c i, m.chars_to_index c = some i → m.alphabet[i]? = some c)
       ∧ (List.replicate m.alphabet.length (0 : ℚ)).length
           = (sortChars m.config.char_bag).length)
    ∧ (∀ m : MarkovModel, mkBackoffMarkovModel config smoothing order pe = .ok m →
       m.alphabet = sortChars config.char_bag ++ [PASSWORD_START]
       ∧ m.config = config
       ∧ m.alphabet.length = (sortChars config.char_bag).length + 1
       ∧ m.chars_to_index = charsToIndex (sortChars config.char_bag)) := by
  constructor
  · intro m h
    obtain ⟨-, rfl⟩ := mkMarkovModel_ok config smoothing order pe m h
    refine ⟨rfl, rfl, ?_, ?_, by simp⟩
    · exact List.sorted_insertionSort _ _
    · intro c i hc
      exact charsToIndex_getElem? _ c i hc
  · intro m h
    obtain ⟨-, -, rfl⟩ := mkBackoffMarkovModel_ok config smoothing order pe m h
    refine ⟨rfl, rfl, by simp, rfl⟩

/-- Counterexample to C8 as stated: for the backoff-training variant the
model alphabet is not sorted (the start sentinel sits at the end), and
the vector probability_next_char allocates fails the smoother shape
assertion. -/
theorem alphabet_layout_backoff_cex :
    ∃ m : MarkovModel, mkBackoffMarkovModel ⟨['a', 'b', '$'], 0, 10⟩ "backoff" 2 '$' = .ok m
      ∧ ¬ List.Sorted (· ≤ ·) m.alphabet
      ∧ probability_next_char m ['a'] 'a' =
          .error "assert answer.shape == (len(self.alphabet),)" := by
  refine ⟨_, rfl, ?_, rfl⟩
  decide

/-- C5: saving the frequency table and reloading it with the identical
configuration rebuilds a model that is equal as a record to the trained
original, hence with bit-identical predict and probability_next_char
outputs, on both the standard and the backoff-training constructor
paths.  (The json serialization round-trips the string-to-number map
exactly; see saveModel.) -/
theorem save_load_roundtrip (config : Config) (smoothing : String) (order : Nat)
    (pe : Char) (t : FreqDict) :
    (∀ m0 : MarkovModel, mkMarkovModel config smoothing order pe = .ok m0 →
       ∃ m1, fromModelFile (saveModel { m0 with freq_dict := t }) config smoothing order pe
           = .ok m1
         ∧ (∀ ctx answer, m1.predict ctx answer
             = ({ m0 with freq_dict := t } : MarkovModel).predict ctx answer)
         ∧ (∀ ctx nc, probability_next_char m1 ctx nc
             = probability_next_char { m0 with freq_dict := t } ctx nc))
    ∧ (∀ m0 : MarkovModel, mkBackoffMarkovModel config smoothing order pe = .ok m0 →
       ∃ m1, fromModelFileBackoff (saveModel { m0 with freq_dict := t }) config smoothing
           order pe = .ok m1
         ∧ (∀ ctx answer, m1.predict ctx answer
             = ({ m0 with freq_dict := t } : MarkovModel).predict ctx answer)
         ∧ (∀ ctx nc, probability_next_char m1 ctx nc
             = probability_next_char { m0 with freq_dict := t } ctx nc)) := by
  constructor
  · intro m0 h
    refine ⟨{ m0 with freq_dict := t }, ?_, fun _ _ => rfl, fun _ _ => rfl⟩
    simp [fromModelFile, h, saveModel]
  · intro m0 h
    refine ⟨{ m0 with freq_dict := t }, ?_, fun _ _ => rfl, fun _ _ => rfl⟩
    simp [fromModelFileBackoff, h, saveModel]

/-- Witness for C5 on the end-to-end example of the spec: order 2,
alphabet a b with the dollar end sentinel, the table trained from the
password ab with weight 1. -/
theorem save_load_roundtrip_witness :
    (mkMarkovModel ⟨['a', 'b', '$'], 0, 10⟩ "none" 2 '$'
      = .ok { alphabet := sortChars ['a', 'b', '$'],
              chars_to_index := charsToIndex (sortChars ['a', 'b', '$']),
              smoothing := "none", freq_dict := emptyFreq, order := 2,
              config := ⟨['a', 'b', '$'], 0, 10⟩ })
    ∧ ∃ m1, fromModelFile
          (saveModel { alphabet := sortChars ['a', 'b', '$'],
                       chars_to_index := charsToIndex (sortChars ['a', 'b', '$']),
                       smoothing := "none",
                       freq_dict := fun g =>
                         if g = ['a'] then 1 else if g = ['a', 'b'] then 1
                         else if g = ['b', '$'] then 1 else 0,
                       order := 2, config := ⟨['a', 'b', '$'], 0, 10⟩ })
          ⟨['a', 'b', '$'], 0, 10⟩ "none" 2 '$'
        = .ok m1
      ∧ (∀ ctx answer, m1.predict ctx answer
          = ({ alphabet := sortChars ['a', 'b', '$'],
               chars_to_index := charsToIndex (sortChars ['a', 'b', '$']),
               smoothing := "none",
               freq_dict := fun g =>
                 if g = ['a'] then 1 else if g = ['a', 'b'] then 1
                 else if g = ['b', '$'] then 1 else 0,
               order := 2, config := ⟨['a', 'b', '$'], 0, 10⟩ } : MarkovModel).predict
              ctx answer)
      ∧ (∀ ctx nc, probability_next_char m1 ctx nc
          = probability_next_char
              { alphabet := sortChars ['a', 'b', '$'],
                chars_to_index := charsToIndex (sortChars ['a', 'b', '$']),
                smoothing := "none",
                freq_dict := fun g =>
                  if g = ['a'] then 1 else if g = ['a', 'b'] then 1
                  else if g = ['b', '$'] then 1 else 0,
                order := 2, config := ⟨['a', 'b', '$'], 0, 10⟩ } ctx nc) :=
  ⟨rfl, (save_load_roundtrip ⟨['a', 'b', '$'], 0, 10⟩ "none" 2 '$'
      (fun g => if g = ['a'] then 1 else if g = ['a', 'b'] then 1
        else if g = ['b', '$'] then 1 else 0)).1 _ rfl⟩

/-- Dividing by a fixed nonzero total is injective on the added entry. -/
theorem add_div_cancel_iff (v F t : ℚ) (ht : t ≠ 0) :
    ((v + F) / t = F / t) ↔ v = 0 := by
  rw [div_eq_div_iff ht ht]
  constructor
  · intro h
    have h2 := mul_right_cancel₀ ht h
    linarith
  · intro h
    rw [h, zero_add]

/-- The accumulated-then-normalized vector equals the pure distribution
exactly when the incoming vector is all zeros. -/
theorem map_add_div_eq_iff (f : Char → ℚ) (t : ℚ) (ht : t ≠ 0) :
    ∀ (al : List Char) (ans : List ℚ), ans.length = al.length →
      (((al.zip ans).map (fun p => (p.2 + f p.1) / t) = al.map (fun c => f c / t))
        ↔ ans = List.replicate al.length 0) := by
  intro al
  induction al with
  | nil =>
    intro ans h
    have hnil : ans = [] := by
      rw [List.length_nil, List.length_eq_zero] at h
      exact h
    subst hnil
    simp
  | cons c al ih =>
    intro ans h
    cases ans with
    | nil => simp at h
    | cons v ans =>
      have h2 : ans.length = al.length := by simpa using h
      simp only [List.zip_cons_cons, List.map_cons, List.length_cons,
        List.replicate_succ, List.cons.injEq]
      rw [ih ans h2, add_div_cancel_iff v (f c) t ht]

/-- C2: with alphabet size N, additive amount a ≥ 0 and raw total count C
for the context, the additive smoother predicts
(count(ctx+c) + a) / (C + a * N) for every next character c, a missing
ngram counting 0, whenever the denominator is nonzero (with a zero
denominator numpy would return NaN entries instead). -/
theorem additive_smoothing_formula (d : FreqDict) (a : ℚ) (config : Config)
    (ctx : List Char) (ha : 0 ≤ a)
    (hden : ((sortChars config.char_bag).map (fun c => d (ctx ++ [c]))).sum
        + a * (sortChars config.char_bag).length ≠ 0) :
    additivePredict d a (sortChars config.char_bag) ctx
        (List.replicate (sortChars config.char_bag).length 0)
      = .ok ((sortChars config.char_bag).map (fun c =>
          (d (ctx ++ [c]) + a)
            / (((sortChars config.char_bag).map (fun c2 => d (ctx ++ [c2]))).sum
                + a * (sortChars config.char_bag).length))) := by
  have htot : total_sum (freqAdditive d a) (sortChars config.char_bag) ctx
      = ((sortChars config.char_bag).map (fun c2 => d (ctx ++ [c2]))).sum
          + a * (sortChars config.char_bag).length := by
    unfold total_sum freqAdditive
    rw [sum_map_add_const]
    ring
  unfold additivePredict
  rw [if_pos (by simp)]
  rw [std_predict_zero]
  simp only [htot, freqAdditive]

/-- Witness for C2: alphabet a b with the dollar sentinel, one bigram ab
with count 1 (so C = 1, N = 3) and amount one half. -/
theorem additive_smoothing_formula_witness :
    (0 : ℚ) ≤ 1/2
    ∧ (((sortChars ['a', 'b', '$']).map (fun c =>
          (fun g => if g = ['a', 'b'] then (1 : ℚ) else 0) (['a'] ++ [c]))).sum
        + (1/2) * (sortChars ['a', 'b', '$']).length ≠ 0)
    ∧ additivePredict (fun g => if g = ['a', 'b'] then (1 : ℚ) else 0) (1/2)
        (sortChars ['a', 'b', '$']) ['a']
        (List.replicate (sortChars ['a', 'b', '$']).length 0)
      = .ok ((sortChars ['a', 'b', '$']).map (fun c =>
          ((fun g => if g = ['a', 'b'] then (1 : ℚ) else 0) (['a'] ++ [c]) + 1/2)
            / ((((sortChars ['a', 'b', '$']).map (fun c2 =>
                  (fun g => if g = ['a', 'b'] then (1 : ℚ) else 0) (['a'] ++ [c2]))).sum
              + (1/2) * (sortChars ['a', 'b', '$']).length)))) := by
  have hs : sortChars ['a', 'b', '$'] = ['$', 'a', 'b'] := by decide
  have hden : (((sortChars ['a', 'b', '$']).map (fun c =>
        (fun g => if g = ['a', 'b'] then (1 : ℚ) else 0) (['a'] ++ [c]))).sum
      + (1/2) * (sortChars ['a', 'b', '$']).length ≠ 0) := by
    rw [hs]
    simp
    all_goals norm_num
  exact ⟨by norm_num, hden,
    additive_smoothing_formula (fun g => if g = ['a', 'b'] then (1 : ℚ) else 0) (1/2)
      ⟨['a', 'b', '$'], 0, 10⟩ ['a'] (by norm_num) hden⟩

/-- C10: for the none and additive smoothers, predict adds each smoothed
count into the existing entry of the answer vector and divides by the sum
of the counts alone, so entry i ends as
(initial answer[i] + freq(ctx + c_i)) / (sum of freq(ctx + c_j)); the
result is the pure distribution freq_i / total exactly when the incoming
vector is all zeros, and probability_next_char passes a fresh zero vector
so it returns freq(truncated ctx + nc) / total for the queried
character. -/
theorem predict_adds_into_answer (d : FreqDict) (a : ℚ) (al ctx : List Char)
    (answer : List ℚ) (hlen : answer.length = al.length)
    (htn : total_sum (freqNone d) al ctx ≠ 0)
    (hta : total_sum (freqAdditive d a) al ctx ≠ 0) :
    (nonePredict d al ctx answer = .ok ((al.zip answer).map (fun p =>
        (p.2 + freqNone d (ctx ++ [p.1])) / total_sum (freqNone d) al ctx)))
    ∧ (additivePredict d a al ctx answer = .ok ((al.zip answer).map (fun p =>
        (p.2 + freqAdditive d a (ctx ++ [p.1])) / total_sum (freqAdditive d a) al ctx)))
    ∧ ((std_predict (freqNone d) al ctx answer
          = al.map (fun c => freqNone d (ctx ++ [c]) / total_sum (freqNone d) al ctx))
        ↔ answer = List.replicate al.length 0)
    ∧ (∀ (config : Config) (order : Nat) (pe : Char) (m0 : MarkovModel)
         (context : List Char) (nc : Char) (i : Nat),
         mkMarkovModel config "none" order pe = .ok m0 →
         charsToIndex (sortChars config.char_bag) nc = some i →
         total_sum (freqNone d) (sortChars config.char_bag)
             (truncate_context order context) ≠ 0 →
         probability_next_char { m0 with freq_dict := d } context nc
           = .ok (d (truncate_context order context ++ [nc])
               / total_sum (freqNone d) (sortChars config.char_bag)
                   (truncate_context order context))) := by
  have hstd : std_predict (freqNone d) al ctx answer
      = (al.zip answer).map (fun p =>
          (p.2 + freqNone d (ctx ++ [p.1])) / total_sum (freqNone d) al ctx) := by
    simp [std_predict, sum_elems, List.map_map, Function.comp]
  refine ⟨?_, ?_, ?_, ?_⟩
  · rw [nonePredict, if_pos hlen, hstd]
  · rw [additivePredict, if_pos hlen]
    simp [std_predict, sum_elems, List.map_map, Function.comp]
  · rw [hstd]
    exact map_add_div_eq_iff (fun c => freqNone d (ctx ++ [c])) _ htn al answer hlen
  · intro config order pe m0 context nc i hmk hidx htz
    obtain ⟨hpe, rfl⟩ := mkMarkovModel_ok config "none" order pe m0 hmk
    have hal := charsToIndex_getElem? (sortChars config.char_bag) nc i hidx
    unfold probability_next_char MarkovModel.predict make_smoother
    simp only [hidx]
    simp only [nonePredict, List.length_replicate, if_pos rfl, if_true]
    rw [std_predict_zero]
    rw [getD_map_of_getElem? _ _ i nc hal]
    rfl

/-- Witness for C10 on a nonzero incoming vector over the example table:
the hypotheses of the accumulation theorem hold concretely. -/
theorem predict_adds_into_answer_witness :
    ([ (1 : ℚ), 2, 3].length = (sortChars ['a', 'b', '$']).length)
    ∧ total_sum (freqNone (fun g => if g = ['a', 'b'] then (1 : ℚ) else 0))
        (sortChars ['a', 'b', '$']) ['a'] ≠ 0
    ∧ total_sum (freqAdditive (fun g => if g = ['a', 'b'] then (1 : ℚ) else 0) (1/2))
        (sortChars ['a', 'b', '$']) ['a'] ≠ 0
    ∧ nonePredict (fun g => if g = ['a', 'b'] then (1 : ℚ) else 0)
        (sortChars ['a', 'b', '$']) ['a'] [1, 2, 3]
      = .ok (((sortChars ['a', 'b', '$']).zip [1, 2, 3]).map (fun p =>
          (p.2 + freqNone (fun g => if g = ['a', 'b'] then (1 : ℚ) else 0) (['a'] ++ [p.1]))
            / total_sum (freqNone (fun g => if g = ['a', 'b'] then (1 : ℚ) else 0))
                (sortChars ['a', 'b', '$']) ['a'])) := by
  have hs : sortChars ['a', 'b', '$'] = ['$', 'a', 'b'] := by decide
  have h1 : ([ (1 : ℚ), 2, 3].length = (sortChars ['a', 'b', '$']).length) := by
    rw [hs]
    rfl
  have h2 : total_sum (freqNone (fun g => if g = ['a', 'b'] then (1 : ℚ) else 0))
      (sortChars ['a', 'b', '$']) ['a'] ≠ 0 := by
    rw [hs]
    simp [total_sum, freqNone]
  have h3 : total_sum (freqAdditive (fun g => if g = ['a', 'b'] then (1 : ℚ) else 0) (1/2))
      (sortChars ['a', 'b', '$']) ['a'] ≠ 0 := by
    rw [hs]
    simp [total_sum, freqAdditive]
    all_goals norm_num
  exact ⟨h1, h2, h3,
    (predict_adds_into_answer (fun g => if g = ['a', 'b'] then (1 : ℚ) else 0) (1/2)
      (sortChars ['a', 'b', '$']) ['a'] [1, 2, 3] h1 h2 h3).1⟩

/-- For order ≥ 2 the program increments coincide with the increments the
specification describes; the two differ only in the final suffix slice at
order 1, where the program takes the whole password. -/
theorem train_increments_eq_spec (order : Nat) (pe : Char) (pwd : List Char)
    (h2 : 2 ≤ order) :
    train_increments order pe pwd = spec_train_increments order pe pwd := by
  unfold train_increments spec_train_increments
  have hmin : min order (pwd.length + 1) - 1 = min (order - 1) pwd.length := by omega
  rw [hmin]
  have hsuffix : pySliceFrom pwd (1 - (order : Int))
      = pwd.drop (pwd.length - (order - 1)) := by
    have hlt : (1 - (order : Int)) < 0 := by omega
    rw [pySliceFrom, if_pos hlt]
    have harg : ((pwd.length : Int) + (1 - (order : Int))).toNat
        = pwd.length - (order - 1) := by omega
    rw [harg]
  rw [hsuffix]

/-- C1 (amended to order ≥ 2): for every password and nonzero weight,
train_on_pwd succeeds and performs exactly the increments the claim
lists, each by the weight and no others: the final table adds
weight times the multiplicity of each ngram in that list.  At order 1 the
final slice is the whole password plus the sentinel, which violates the
increment length assertion on any password of length at least 1 (see the
counterexample). -/
theorem train_on_pwd_exact_increments (order : Nat) (pe : Char) (pwd : List Char)
    (w : ℚ) (d : FreqDict) (h2 : 2 ≤ order) (hw : w ≠ 0) :
    ∃ t, train_on_pwd order pe d pwd w = .ok t
      ∧ ∀ g, t g = d g + w * ((spec_train_increments order pe pwd).count g : ℚ) := by
  have hlen : ∀ g ∈ train_increments order pe pwd, g.length ≤ order := by
    intro g hg
    unfold train_increments at hg
    simp only [List.mem_append, List.mem_map, List.mem_range, List.mem_singleton] at hg
    rcases hg with (⟨j, hj, rfl⟩ | ⟨i, hi, rfl⟩) | rfl
    · have hj2 : j < 1 + (min order (pwd.length + 1) - 1) := List.mem_range'_1.mp hj |>.2
      simp only [List.length_take]
      omega
    · simp only [pySlice, List.length_drop, List.length_take]
      omega
    · simp only [List.length_append, List.length_cons, List.length_nil]
      rcases lt_or_le (1 - (order : Int)) 0 with hlt | hge
      · rw [pySliceFrom, if_pos hlt]
        simp only [List.length_drop]
        omega
      · rw [pySliceFrom, if_neg (by omega)]
        simp only [List.length_drop]
        omega
  obtain ⟨t, h1, hval⟩ := applyIncrements_ok order w hw (train_increments order pe pwd) d hlen
  refine ⟨t, h1, ?_⟩
  rw [← train_increments_eq_spec order pe pwd h2]
  exact hval

/-- Witness for C1 on the end-to-end example of the spec: order 2,
password ab, weight 1; the resulting table counts a, ab and b$ once. -/
theorem train_on_pwd_exact_increments_witness :
    (2 : Nat) ≤ 2 ∧ (1 : ℚ) ≠ 0
    ∧ ∃ t, train_on_pwd 2 '$' emptyFreq ['a', 'b'] 1 = .ok t
        ∧ ∀ g, t g = emptyFreq g
            + 1 * ((spec_train_increments 2 '$' ['a', 'b']).count g : ℚ) :=
  ⟨le_refl 2, one_ne_zero,
    train_on_pwd_exact_increments 2 '$' ['a', 'b'] 1 emptyFreq (le_refl 2) one_ne_zero⟩

/-- Counterexample to C1 as stated: at order 1 on the password ab with
weight 1, the final increment is the whole password plus the sentinel (a
3-gram), the length assertion fires, and training does not produce the
table the claim describes. -/
theorem train_on_pwd_order_one_cex :
    ¬ ∃ t, train_on_pwd 1 '$' emptyFreq ['a', 'b'] 1 = .ok t
        ∧ ∀ g, t g = emptyFreq g
            + 1 * ((spec_train_increments 1 '$' ['a', 'b']).count g : ℚ) := by
  rintro ⟨t, h, -⟩
  rw [show train_on_pwd 1 '$' emptyFreq ['a', 'b'] 1
      = .error "assert len(pwd) <= self.order" from rfl] at h
  exact Except.noConfusion h

/-- C4 (amended): a table built by the backoff trainer from a pair with
positive weight gives every character of the normalized training string a
1-gram count of at least the weight; when the backoff threshold does not
exceed weight + amount those 1-grams survive the threshold, the
empty-context total is nonzero, and backoff prediction returns a value on
every context without ever erroring; and whenever the empty context is
reached with a zero total the smoother fails loudly with the assertion
error instead of looping or dividing by zero.  As stated the claim is
refuted by the default threshold of 10 (see the counterexample). -/
theorem backoff_training_coverage (config : Config) (order : Nat) (pwd : List Char)
    (w : ℚ) (pe : Char) (h1 : 1 ≤ order) (hw : 0 < w)
    (ha : 0 ≤ config.additive_smoothing_amount)
    (hth : config.backoff_smoothing_threshold ≤ w + config.additive_smoothing_amount)
    (hpe : pe ∈ sortChars config.char_bag) :
    ∃ t, backoff_train_on_pwd order PASSWORD_START pe emptyFreq pwd w = .ok t
      ∧ (∀ c ∈ PASSWORD_START :: (pwd ++ [pe]),
           0 < freqBackoff t config.additive_smoothing_amount
               config.backoff_smoothing_threshold [c])
      ∧ (∀ ctx answer, ∃ v,
           backoff_predict (freqBackoff t config.additive_smoothing_amount
               config.backoff_smoothing_threshold) (sortChars config.char_bag) ctx answer
             = .ok v)
      ∧ (∀ (d2 : FreqDict) (answer : List ℚ),
           total_sum (freqBackoff d2 config.additive_smoothing_amount
               config.backoff_smoothing_threshold) (sortChars config.char_bag) [] = 0 →
           backoff_predict (freqBackoff d2 config.additive_smoothing_amount
               config.backoff_smoothing_threshold) (sortChars config.char_bag) [] answer
             = .error "Backing off on 0 character string!?!") := by
  set a := config.additive_smoothing_amount with hadef
  set th := config.backoff_smoothing_threshold with hthdef
  set al := sortChars config.char_bag with haldef
  have hlen : ∀ g ∈ backoff_train_increments order PASSWORD_START pe pwd,
      g.length ≤ order := by
    intro g hg
    unfold backoff_train_increments at hg
    simp only [List.mem_flatMap, List.mem_map, List.mem_range] at hg
    obtain ⟨p, hp, oi, hoi, rfl⟩ := hg
    simp only [pySlice, List.length_drop, List.length_take]
    omega
  obtain ⟨t, htr, htv⟩ :=
    applyIncrements_ok order w hw.ne' (backoff_train_increments order PASSWORD_START pe pwd)
      emptyFreq hlen
  have hsingle : ∀ c ∈ PASSWORD_START :: (pwd ++ [pe]),
      [c] ∈ backoff_train_increments order PASSWORD_START pe pwd := by
    intro c hc
    obtain ⟨p, hp, rfl⟩ := List.mem_iff_getElem.mp hc
    unfold backoff_train_increments
    refine List.mem_flatMap.mpr ⟨p, List.mem_range.mpr hp, ?_⟩
    refine List.mem_map.mpr ⟨0, List.mem_range.mpr (by omega), ?_⟩
    simp only [Nat.add_zero]
    unfold pySlice
    rw [List.drop_take, List.drop_eq_getElem_cons hp]
    simp
  have hcnt : ∀ c ∈ PASSWORD_START :: (pwd ++ [pe]), w ≤ t [c] := by
    intro c hc
    have hm := hsingle c hc
    have hpos : 0 < (backoff_train_increments order PASSWORD_START pe pwd).count [c] :=
      List.count_pos_iff.mpr hm
    have hposq : (1 : ℚ) ≤ ((backoff_train_increments order PASSWORD_START pe pwd).count [c] : ℚ) := by
      exact_mod_cast hpos
    rw [htv [c]]
    have hmul : w * 1 ≤ w * ((backoff_train_increments order PASSWORD_START pe pwd).count [c] : ℚ) :=
      mul_le_mul_of_nonneg_left hposq hw.le
    simp only [emptyFreq]
    linarith
  have htnn : ∀ g, 0 ≤ t g := by
    intro g
    rw [htv g]
    have := mul_nonneg hw.le
      (Nat.cast_nonneg ((backoff_train_increments order PASSWORD_START pe pwd).count g))
    simp only [emptyFreq]
    linarith
  have hfbnn : ∀ g, 0 ≤ freqBackoff t a th g := by
    intro g
    unfold freqBackoff
    split
    · exact le_refl 0
    · exact add_nonneg (htnn g) ha
  have hfbpos : ∀ c ∈ PASSWORD_START :: (pwd ++ [pe]), 0 < freqBackoff t a th [c] := by
    intro c hc
    have hwc := hcnt c hc
    unfold freqBackoff
    rw [if_neg (not_lt.mpr (by linarith))]
    linarith
  have hpen : pe ∈ PASSWORD_START :: (pwd ++ [pe]) := by simp
  have htotal : total_sum (freqBackoff t a th) al [] ≠ 0 := by
    have hmem : freqBackoff t a th [pe]
        ∈ al.map (fun c => freqBackoff t a th ([] ++ [c])) := by
      refine List.mem_map.mpr ⟨pe, hpe, ?_⟩
      simp
    have hnn : ∀ x ∈ al.map (fun c => freqBackoff t a th ([] ++ [c])), 0 ≤ x := by
      intro x hx
      obtain ⟨c, -, rfl⟩ := List.mem_map.mp hx
      simpa using hfbnn [c]
    have hle := List.single_le_sum hnn _ hmem
    have hppos := hfbpos pe hpen
    unfold total_sum
    intro h0
    rw [h0] at hle
    linarith
  have hterm : ∀ ctx answer, ∃ v,
      backoff_predict (freqBackoff t a th) al ctx answer = .ok v := by
    intro ctx
    induction ctx with
    | nil =>
      intro answer
      refine ⟨(sum_elems (freqBackoff t a th) al [] answer).map
          (fun x => x / total_sum (freqBackoff t a th) al []), ?_⟩
      simp only [backoff_predict]
      rw [if_neg htotal]
    | cons c rest ih =>
      intro answer
      by_cases hz : total_sum (freqBackoff t a th) al (c :: rest) = 0
      · obtain ⟨v, hv⟩ := ih (List.replicate al.length 0)
        refine ⟨v, ?_⟩
        simp only [backoff_predict]
        rw [if_pos hz]
        exact hv
      · refine ⟨(sum_elems (freqBackoff t a th) al (c :: rest) answer).map
            (fun x => x / total_sum (freqBackoff t a th) al (c :: rest)), ?_⟩
        simp only [backoff_predict]
        rw [if_neg hz]
  refine ⟨t, htr, hfbpos, hterm, ?_⟩
  intro d2 answer hz
  simp only [backoff_predict]
  rw [if_pos hz]

/-- Counterexample to C4 as stated: with the default threshold 10 and a
single training pair of weight 1, every thresholded count is floored to
zero, so prediction on the 1-character context a recurses through the
empty context and dies on the assertion instead of reaching a nonzero
total first. -/
theorem backoff_training_coverage_cex :
    ∃ t, backoff_train_on_pwd 2 PASSWORD_START '$' emptyFreq ['a'] 1 = .ok t
      ∧ backoff_predict (freqBackoff t 0 10) (sortChars ['$', 'a']) ['a']
          (List.replicate 2 0) = .error "Backing off on 0 character string!?!" := by
  obtain ⟨t, htr, htv⟩ := applyIncrements_ok 2 1 one_ne_zero
    (backoff_train_increments 2 PASSWORD_START '$' ['a']) emptyFreq (by decide)
  refine ⟨t, htr, ?_⟩
  have hfb : ∀ g, freqBackoff t 0 10 g = 0 := by
    intro g
    have hlen5 : (backoff_train_increments 2 PASSWORD_START '$' ['a']).length = 5 := by
      decide
    have hcn : (backoff_train_increments 2 PASSWORD_START '$' ['a']).count g ≤ 5 :=
      hlen5 ▸ List.count_le_length g (backoff_train_increments 2 PASSWORD_START '$' ['a'])
    have hc : ((backoff_train_increments 2 PASSWORD_START '$' ['a']).count g : ℚ) ≤ 5 := by
      exact_mod_cast hcn
    unfold freqBackoff
    rw [if_pos ?hpos]
    case hpos =>
      rw [htv g]
      simp only [emptyFreq, zero_add, one_mul, add_zero]
      linarith
  have htot : ∀ ctx, total_sum (freqBackoff t 0 10) (sortChars ['$', 'a']) ctx = 0 := by
    intro ctx
    simp [total_sum, hfb]
  simp only [backoff_predict]
  rw [if_pos (htot ['a']), if_pos (htot [])]

/-- Witness for C4: threshold 1, amount 0, weight 1, order 2, password a;
the hypotheses hold and the trained model satisfies the amended claim. -/
theorem backoff_training_coverage_witness :
    (1 : Nat) ≤ 2 ∧ (0 : ℚ) < 1 ∧ (0 : ℚ) ≤ 0 ∧ (1 : ℚ) ≤ 1 + 0
    ∧ '$' ∈ sortChars ['$', 'a']
    ∧ (∃ t, backoff_train_on_pwd 2 PASSWORD_START '$' emptyFreq ['a'] 1 = .ok t
        ∧ (∀ c ∈ PASSWORD_START :: (['a'] ++ ['$']), 0 < freqBackoff t 0 1 [c])
        ∧ (∀ ctx answer, ∃ v,
            backoff_predict (freqBackoff t 0 1) (sortChars ['$', 'a']) ctx answer = .ok v)
        ∧ (∀ (d2 : FreqDict) (answer : List ℚ),
            total_sum (freqBackoff d2 0 1) (sortChars ['$', 'a']) [] = 0 →
            backoff_predict (freqBackoff d2 0 1) (sortChars ['$', 'a']) [] answer
              = .error "Backing off on 0 character string!?!")) :=
  ⟨by decide, by norm_num, le_refl 0, by norm_num, by decide,
    backoff_training_coverage ⟨['$', 'a'], 0, 1⟩ 2 ['a'] 1 '$'
      (by decide) (by norm_num) (le_refl 0) (by norm_num) (by decide)⟩

/-- Witness for C8 on the standard constructor with the example
configuration. -/
theorem alphabet_layout_witness :
    ∃ m : MarkovModel, mkMarkovModel ⟨['a', 'b', '$'], 0, 10⟩ "none" 2 '$' = .ok m
      ∧ m.alphabet = sortChars ['a', 'b', '$']
      ∧ List.Sorted (· ≤ ·) m.alphabet
      ∧ (∀ c i, m.chars_to_index c = some i → m.alphabet[i]? = some c) := by
  refine ⟨_, rfl, ?_⟩
  have h := (alphabet_layout ⟨['a', 'b', '$'], 0, 10⟩ "none" 2 '$').1 _ rfl
  exact ⟨h.1, h.2.2.1, h.2.2.2.1⟩

/-- Witness for C9: a configuration whose sorted bag contains the end
sentinel is accepted by the constructor. -/
theorem construction_validates_only_sentinel_witness :
    exceptOk (mkMarkovModel ⟨['$', 'a'], 0, 10⟩ "none" 2 '$') = true :=
  (construction_validates_only_sentinel ⟨['$', 'a'], 0, 10⟩ "none" 2 '$').1.mpr (by decide)
